import Mathlib

/-
Verification of the graph-construction pipeline of project-constellai.

Shallow embedding of the core subsystems:
- EntityClassifier: the is_entity UDF of src/wikipedia/entity_classifier.py
  (lines 22-144), with the external classification service modelled as an
  oracle mapping an attempt number and the pending title list to a partial
  map from titles to booleans (an absent key models a title missing from
  the parsed JSON response; a failed call is the everywhere-absent map).
- EmbeddingGenerator: the generate_title_embeddings UDF (lines 189-236),
  with the external embedding service modelled as an oracle from the batch
  start offset and the batch to an optional list of embedding vectors
  (none models a failed call for that sub-batch).
- SimilarityGraphBuilder: the tail of entity_classifier.py (lines 281-376):
  cosine-similarity column, positive-signal filter, descending sort,
  per-title top-10 neighbor aggregation, and the written edge table.
  Embedding vectors are lists of rationals; the empty list is the
  empty-vector sentinel.  The scipy cosine-distance call is an opaque
  parameter, as the claims only concern the empty-sentinel short-circuit.
- GraphPreprocessor: preprocess_wiki_data of src/backend/main.py
  (lines 56-162).  The function body operates on columnar dictionaries
  (to_pydict output), so it is embedded columnar: NodeCols and EdgeCols
  hold one list per column.  Out-of-range column access, the only failure
  the typed embedding can express, is modelled with Except; the catch-all
  fallback of lines 160-162 returns the original input pair.

Node and edge identifiers are generic over a linearly ordered type
(identifiers are strings in the source; the lexicographic sort of
tuple(sorted([source, target])) on a two-element list is min/max).
Similarity values are generic where the code only carries them and
rational where the code compares them.
-/

namespace ConstellAI

/-! ### Data model -/

/-- One row of df_exploded at the point the similarity column exists:
source title, one outgoing link, and the similarity score. -/
structure PairRow (α : Type) where
  title : α
  links : α
  similarity : ℚ
deriving DecidableEq

/-- One row of the final edge table: source, target, similarity. -/
structure WikiEdge (α β : Type) where
  source : α
  target : α
  similarity : β
deriving DecidableEq

/-- One row of the node table: id, summary, text. -/
structure WikiNode (α σ : Type) where
  id : α
  summary : σ
  text : σ
deriving DecidableEq

/-- Columnar node data, the shape of nodes_df.to_pydict() in
preprocess_wiki_data: one list per column. -/
structure NodeCols (α σ : Type) where
  id : List α
  summary : List σ
  text : List σ
deriving DecidableEq

/-- Columnar edge data, the shape of edges_df.to_pydict(). -/
structure EdgeCols (α β : Type) where
  source : List α
  target : List α
  similarity : List β
deriving DecidableEq

/-! ### EntityClassifier (entity_classifier.py lines 22-144)

The while loop of lines 120-137: while remaining titles exist and
retry_count < max_retries, call classify_batch on the remaining titles,
merge the returned map into results_dict (dict.update overwrites), and
drop the answered titles from the pending list.  The fuel argument below
is max_retries - retry_count: the loop body runs at most max_retries
times because retry_count is incremented exactly when the recursion
continues.  The attempt counter counts classify_batch calls. -/

/-- results_dict.update(batch_results) of line 127: keys present in the
batch overwrite, absent keys keep their old value. -/
def updateResults {α : Type} (results batch : α → Option Bool) : α → Option Bool :=
  fun t => match batch t with
  | some b => some b
  | none => results t

/-- The retry loop of lines 120-137.  Returns the number of
classify_batch calls made, the final results map, and the final pending
list. -/
def classifyRounds {α : Type} [DecidableEq α] (resp : ℕ → List α → α → Option Bool) :
    ℕ → ℕ → (α → Option Bool) → List α → ℕ × (α → Option Bool) × List α
  | 0, attempt, results, remaining => (attempt, results, remaining)
  | fuel + 1, attempt, results, remaining =>
    if remaining.isEmpty then (attempt, results, remaining)
    else
      let batch := resp attempt remaining
      let results' := updateResults results batch
      let remaining' := remaining.filter fun t => batch t = none
      classifyRounds resp fuel (attempt + 1) results' remaining'

/-- Line 118: max_retries = 3. -/
def max_retries : ℕ := 3

/-- The results map after the retry loop and the defaulting pass of
lines 139-141: any title still pending is assigned False. -/
def resultsAfterRetries {α : Type} [DecidableEq α] (resp : ℕ → List α → α → Option Bool)
    (titles : List α) : α → Option Bool :=
  let st := classifyRounds resp max_retries 0 (fun _ => none) titles
  fun t => if t ∈ st.2.2 then some false else st.2.1 t

/-- Number of classification attempts made for a batch of titles. -/
def classify_attempts {α : Type} [DecidableEq α] (resp : ℕ → List α → α → Option Bool)
    (titles : List α) : ℕ :=
  (classifyRounds resp max_retries 0 (fun _ => none) titles).1

/-- The is_entity UDF: line 144 returns results_dict.get(t, False) for
each input title, in input order. -/
def is_entity {α : Type} [DecidableEq α] (resp : ℕ → List α → α → Option Bool)
    (titles : List α) : List Bool :=
  titles.map fun t => (resultsAfterRetries resp titles t).getD false

/-! ### EmbeddingGenerator (entity_classifier.py lines 189-236)

The loop for i in range(0, len(titles), batch_size) with batch_size = 20:
each iteration slices titles[i:i+20], calls the embedding service once,
and on failure appends one empty-vector sentinel per title of the
sub-batch instead (lines 226-230), then continues with the next
sub-batch. -/

/-- One loop iteration over the remaining titles; i is the absolute start
offset of the current sub-batch within the original title list. -/
def genGo {α : Type} (embed : ℕ → List α → Option (List (List ℚ))) (i : ℕ)
    (ts : List α) : List (List ℚ) :=
  if ts.isEmpty then []
  else
    let batch := ts.take 20
    let result := match embed i batch with
      | some embs => embs
      | none => batch.map fun _ => []
    result ++ genGo embed (i + 20) (ts.drop 20)
termination_by ts.length
decreasing_by
  simp only [List.length_drop]
  rename_i h
  have : 0 < ts.length := by
    cases ts with
    | nil => simp at h
    | cons a l => simp
  omega

/-- The generate_title_embeddings UDF: process the titles in sub-batches
of 20 starting at offset 0. -/
def generate_title_embeddings {α : Type} (embed : ℕ → List α → Option (List (List ℚ)))
    (titles : List α) : List (List ℚ) :=
  genGo embed 0 titles

/-! ### SimilarityGraphBuilder (entity_classifier.py lines 281-376) -/

/-- The calculate_cosine_similarity UDF (lines 281-310): pairwise over
the two embedding columns; a falsy (empty) embedding on either side
yields 0.0 without calling the cosine routine, otherwise the score is
1 - cosine_distance.  The scipy cosine distance is the opaque parameter
cos. -/
def calculate_cosine_similarity (cos : List ℚ → List ℚ → ℚ)
    (srcs tgts : List (List ℚ)) : List ℚ :=
  List.zipWith (fun s t => if s = [] ∨ t = [] then 0 else 1 - cos s t) srcs tgts

/-- Line 321: df_exploded.where(similarity > 0), the positive-signal
filter. -/
def positive_filter {α : Type} (rows : List (PairRow α)) : List (PairRow α) :=
  rows.filter fun r => decide (0 < r.similarity)

/-- Line 333: sorted_df = df_exploded.sort(similarity, desc=True). -/
def sorted_df {α : Type} (rows : List (PairRow α)) : List (PairRow α) :=
  rows.mergeSort fun a b => decide (b.similarity ≤ a.similarity)

/-- Lines 335-337: neighbors_df groups sorted_df by title, aggregates the
links of each group into a list, and slices the first 10; this is the
per-source list of retained link targets. -/
def top_links {α : Type} [DecidableEq α] (rows : List (PairRow α)) (src : α) : List α :=
  (((sorted_df rows).filter fun r => decide (r.title = src)).map fun r => r.links).take 10

/-- Lines 361-372: edge_df selects title, links, similarity from
df_exploded and renames them source, target, similarity; one output row
per input row. -/
def edge_df {α : Type} (rows : List (PairRow α)) : List (WikiEdge α ℚ) :=
  rows.map fun r => ⟨r.title, r.links, r.similarity⟩

/-! ### GraphPreprocessor (backend/main.py lines 56-162) -/

/-- Step 1, lines 79-87: iterate over the id column with enumerate; a
fresh id is recorded together with summary[i] and text[i], a repeated id
is skipped without touching the other columns.  Column access out of
range is the Except failure. -/
def dedupNodesGo {α σ : Type} [DecidableEq α] (summaries texts : List σ) :
    List α → ℕ → List (WikiNode α σ) → Except Unit (List (WikiNode α σ))
  | [], _, acc => .ok acc
  | nid :: rest, i, acc =>
    if acc.any fun q => decide (q.id = nid) then
      dedupNodesGo summaries texts rest (i + 1) acc
    else
      match summaries[i]?, texts[i]? with
      | some s, some t => dedupNodesGo summaries texts rest (i + 1) (acc ++ [⟨nid, s, t⟩])
      | _, _ => .error ()

/-- Line 112: tuple(sorted([source, target])), the canonical key of an
edge; sorting a two-element list is (min, max). -/
def edge_key {α : Type} [LinearOrder α] (s t : α) : α × α :=
  (min s t, max s t)

/-- Steps 2 and 3, lines 101-122: iterate over the source column; read
target[i] and similarity[i] unconditionally (out of range is the Except
failure), skip self-loops, skip edges whose canonical key was already
seen, and otherwise append the edge and record its key. -/
def dedupEdgesGo {α β : Type} [LinearOrder α] (targets : List α) (sims : List β) :
    List α → ℕ → List (α × α) → List (WikiEdge α β) → Except Unit (List (WikiEdge α β))
  | [], _, _, acc => .ok acc
  | s :: rest, i, seen, acc =>
    match targets[i]?, sims[i]? with
    | some t, some sim =>
      if s = t then dedupEdgesGo targets sims rest (i + 1) seen acc
      else if edge_key s t ∈ seen then dedupEdgesGo targets sims rest (i + 1) seen acc
      else dedupEdgesGo targets sims rest (i + 1) (seen ++ [edge_key s t]) (acc ++ [⟨s, t, sim⟩])
    | _, _ => .error ()

/-- Step 4, lines 126-130: the set of ids appearing as an endpoint of a
surviving edge (connected_nodes). -/
def edgeEndpoints {α β : Type} (es : List (WikiEdge α β)) : List α :=
  (es.map fun e => e.source) ++ (es.map fun e => e.target)

/-- Rebuild the columnar node dictionary from the kept node rows
(final_nodes of lines 133-144 and daft.from_pydict of line 151). -/
def toNodeCols {α σ : Type} (l : List (WikiNode α σ)) : NodeCols α σ :=
  ⟨l.map fun r => r.id, l.map fun r => r.summary, l.map fun r => r.text⟩

/-- Rebuild the columnar edge dictionary from the kept edge rows
(processed_edges of lines 91-121 and daft.from_pydict of line 152). -/
def toEdgeCols {α β : Type} (l : List (WikiEdge α β)) : EdgeCols α β :=
  ⟨l.map fun e => e.source, l.map fun e => e.target, l.map fun e => e.similarity⟩

/-- The body of the try block of lines 74-158: node dedup, then edge
cleaning, then island removal, then reassembly of the two columnar
outputs.  Any internal failure aborts the whole pass. -/
def cleanPass {α σ β : Type} [LinearOrder α] (nodes : NodeCols α σ) (edges : EdgeCols α β) :
    Except Unit (NodeCols α σ × EdgeCols α β) :=
  match dedupNodesGo nodes.summary nodes.text nodes.id 0 [] with
  | .error _ => .error ()
  | .ok un =>
    match dedupEdgesGo edges.target edges.similarity edges.source 0 [] [] with
    | .error _ => .error ()
    | .ok pe =>
      let fn := un.filter fun r => decide (r.id ∈ edgeEndpoints pe)
      .ok (toNodeCols fn, toEdgeCols pe)

/-- preprocess_wiki_data: the try/except of lines 74-162; on any internal
error the original (nodes, edges) pair is returned unchanged. -/
def preprocess_wiki_data {α σ β : Type} [LinearOrder α] (nodes : NodeCols α σ)
    (edges : EdgeCols α β) : NodeCols α σ × EdgeCols α β :=
  match cleanPass nodes edges with
  | .ok r => r
  | .error _ => (nodes, edges)

/-- Row-level view of the node dedup pass: same first-occurrence-wins
accumulation as dedupNodesGo, over already-zipped node rows. -/
def nodeDedupRows {α σ : Type} [DecidableEq α] (acc : List (WikiNode α σ)) :
    List (WikiNode α σ) → List (WikiNode α σ)
  | [] => acc
  | r :: rest =>
    if acc.any fun q => decide (q.id = r.id) then nodeDedupRows acc rest
    else nodeDedupRows (acc ++ [r]) rest

/-- Row-level view of the edge cleaning pass: same self-loop skip and
first-seen-key-wins accumulation as dedupEdgesGo, over already-zipped
edge rows. -/
def edgeDedupRows {α β : Type} [LinearOrder α] (seen : List (α × α))
    (acc : List (WikiEdge α β)) : List (WikiEdge α β) → List (WikiEdge α β)
  | [] => acc
  | e :: rest =>
    if e.source = e.target then edgeDedupRows seen acc rest
    else if edge_key e.source e.target ∈ seen then edgeDedupRows seen acc rest
    else edgeDedupRows (seen ++ [edge_key e.source e.target]) (acc ++ [e]) rest

/-! ### Concrete inputs for witnesses, counterexamples and scenarios -/

/-- Classification oracle for the retry-and-default scenario: attempt 0,
asked for both titles, answers only for Obama; attempts 1 and 2 return
nothing. -/
def respW : ℕ → List String → String → Option Bool :=
  fun a rem t => if a = 0 ∧ rem = ["Obama", "Physics"] ∧ t = "Obama" then some true else none

/-- The two titles of the retry-and-default scenario. -/
def c4titles : List String := ["Obama", "Physics"]

/-- Embedding oracle whose first sub-batch call (offset 0) fails and
whose later calls succeed, one singleton vector per title. -/
def embW : ℕ → List ℚ → Option (List (List ℚ)) :=
  fun i b => if i = 0 then none else some (b.map fun t => [t])

/-- Twenty-one titles: one full sub-batch of 20 plus one more. -/
def c7titles : List ℚ :=
  [0, 1, 2, 3, 4, 5, 6, 7, 8, 9, 10, 11, 12, 13, 14, 15, 16, 17, 18, 19, 20]

/-- Fifteen candidate rows with one source (0), fifteen distinct targets
and fifteen distinct positive similarities. -/
def c1rows : List (PairRow ℕ) :=
  [⟨0, 1, 1⟩, ⟨0, 2, 2⟩, ⟨0, 3, 3⟩, ⟨0, 4, 4⟩, ⟨0, 5, 5⟩,
   ⟨0, 6, 6⟩, ⟨0, 7, 7⟩, ⟨0, 8, 8⟩, ⟨0, 9, 9⟩, ⟨0, 10, 10⟩,
   ⟨0, 11, 11⟩, ⟨0, 12, 12⟩, ⟨0, 13, 13⟩, ⟨0, 14, 14⟩, ⟨0, 15, 15⟩]

/-- Cosine routine that would return 9 if it were ever consulted. -/
def cos6 : List ℚ → List ℚ → ℚ := fun _ _ => 9

/-- Source embeddings: one genuine vector, one empty sentinel. -/
def srcs6 : List (List ℚ) := [[1], []]

/-- Target embeddings: one empty sentinel, one genuine vector. -/
def tgts6 : List (List ℚ) := [[], [2]]

/-- Preprocessor input nodes with a duplicate id (1), a unique connected
id (2) and an island id (3). -/
def c3nodes : NodeCols ℕ String := ⟨[1, 1, 2, 3], ["a", "b", "c", "d"], ["p", "q", "r", "s"]⟩

/-- Preprocessor input edges: a kept edge, a reversed duplicate, a
self-loop, and another self-loop. -/
def c3edges : EdgeCols ℕ ℚ := ⟨[1, 2, 2, 1], [2, 1, 2, 1], [1, 2, 3, 4]⟩

/-- The cleaned output for c3nodes and c3edges. -/
def c3out : NodeCols ℕ String × EdgeCols ℕ ℚ :=
  (⟨[1, 2], ["a", "c"], ["p", "r"]⟩, ⟨[1], [2], [1]⟩)

/-- Symmetric-dedup scenario nodes: both endpoints present. -/
def c5nodes : NodeCols ℕ String := ⟨[0, 1], ["a", "b"], ["p", "q"]⟩

/-- Symmetric-dedup scenario edges: the pair in both orientations, with
similarities 0.5 then 0.7. -/
def c5edges : EdgeCols ℕ ℚ := ⟨[0, 1], [1, 0], [1 / 2, 7 / 10]⟩

/-- Edge columns for the C5 witness, with whole-number similarities. -/
def c5wedges : EdgeCols ℕ ℚ := ⟨[0, 1], [1, 0], [5, 7]⟩

/-- Node-dedup scenario: two nodes with id 0 and different summaries,
plus a neighbor keeping id 0 out of the island set. -/
def c9nodes : NodeCols ℕ String := ⟨[0, 0, 1], ["A", "B", "D"], ["ta", "tb", "td"]⟩

/-- One edge joining the duplicated node to its neighbor. -/
def c9edges : EdgeCols ℕ ℚ := ⟨[0], [1], [1]⟩

/-- The cleaned output for c9nodes and c9edges: node 0 keeps the fields
of its first occurrence. -/
def c9out : NodeCols ℕ String × EdgeCols ℕ ℚ :=
  (⟨[0, 1], ["A", "D"], ["ta", "td"]⟩, ⟨[0], [1], [1]⟩)

/-- Malformed node columns: one id but no summary and no text entry, the
shape that raises IndexError inside the try block. -/
def c8nodes : NodeCols ℕ String := ⟨[7], [], []⟩

/-- Well-formed edge columns for the C8 witness. -/
def c8edges : EdgeCols ℕ ℚ := ⟨[0], [1], [1]⟩

/-- Malformed edge columns: one source but no target and no similarity
entry. -/
def c8edgesBad : EdgeCols ℕ ℚ := ⟨[0], [], []⟩

/-- Well-formed node columns for the C8 witness second part. -/
def c8nodesOk : NodeCols ℕ String := ⟨[7], ["s"], ["t"]⟩

/-- First node list for the C10 witness. -/
def c10n1 : NodeCols ℕ String := ⟨[0], ["x"], ["y"]⟩

/-- Second, different node list for the C10 witness. -/
def c10n2 : NodeCols ℕ String := ⟨[9], ["z"], ["w"]⟩

/-- Edge columns shared by both C10 runs; the endpoint 1 appears in no
node list. -/
def c10e : EdgeCols ℕ ℚ := ⟨[0], [1], [1]⟩

/-- Well-formedness of columnar node data: each column has the length of
the id column; every to_pydict output of an actual dataframe has this
shape. -/
def wfNodeCols {α σ : Type} (n : NodeCols α σ) : Prop :=
  n.summary.length = n.id.length ∧ n.text.length = n.id.length

/-! ### Helper lemmas: EntityClassifier -/

/-- The retry loop makes at most fuel further attempts. -/
theorem classifyRounds_attempts_le {α : Type} [DecidableEq α]
    (resp : ℕ → List α → α → Option Bool) (fuel : ℕ) :
    ∀ (attempt : ℕ) (results : α → Option Bool) (remaining : List α),
      (classifyRounds resp fuel attempt results remaining).1 ≤ attempt + fuel := by
  induction fuel with
  | zero => intro attempt results remaining; simp [classifyRounds]
  | succ n ih =>
    intro attempt results remaining
    cases remaining with
    | nil => simp [classifyRounds]
    | cons a rem =>
      rw [classifyRounds]
      simp only [List.isEmpty_cons, Bool.false_eq_true, if_false]
      refine le_trans (ih (attempt + 1) _ _) ?_
      omega

/-- Claim C4: the classification call is attempted at most 3 times;
titles missing from all responses stay in the pending set and every
title still pending after the last attempt is assigned is_entity =
false; the returned list has exactly one boolean per input title, in
input order.  The concrete retry-and-default scenario: for titles
Obama and Physics where attempt 1 answers only Obama and attempts 2 and
3 return nothing, the result is true for Obama and false for Physics
after exactly 3 attempts. -/
theorem claim_C4 {α : Type} [DecidableEq α] (resp : ℕ → List α → α → Option Bool)
    (titles : List α) :
    classify_attempts resp titles ≤ max_retries ∧
    (is_entity resp titles).length = titles.length ∧
    (∀ (k : ℕ) (t : α), titles[k]? = some t →
      (is_entity resp titles)[k]? = some ((resultsAfterRetries resp titles t).getD false)) ∧
    (∀ (k : ℕ) (t : α), titles[k]? = some t →
      t ∈ (classifyRounds resp max_retries 0 (fun _ => none) titles).2.2 →
      (is_entity resp titles)[k]? = some false) ∧
    (is_entity respW c4titles = [true, false] ∧ classify_attempts respW c4titles = 3) := by
  refine ⟨?_, ?_, ?_, ?_, ?_, ?_⟩
  · exact classifyRounds_attempts_le resp max_retries 0 _ titles
  · simp [is_entity]
  · intro k t hk
    simp [is_entity, List.getElem?_map, hk]
  · intro k t hk hmem
    have hres : resultsAfterRetries resp titles t = some false := by
      simp [resultsAfterRetries, hmem]
    simp [is_entity, List.getElem?_map, hk, hres]
  · decide
  · decide

/-- Witness for claim C4: in the retry-and-default scenario, Physics is
still pending after the retries and position 1 of the output is false. -/
theorem claim_C4_witness : (is_entity respW c4titles)[1]? = some false :=
  (claim_C4 respW c4titles).2.2.2.1 1 "Physics" (by decide) (by decide)

/-! ### Helper lemmas: EmbeddingGenerator -/

/-- genGo on an exhausted title list. -/
theorem genGo_nil {α : Type} (embed : ℕ → List α → Option (List (List ℚ))) (i : ℕ) :
    genGo embed i [] = [] := by
  rw [genGo]
  simp

/-- One unfolding of genGo on a nonempty title list. -/
theorem genGo_ne {α : Type} (embed : ℕ → List α → Option (List (List ℚ))) (i : ℕ)
    (ts : List α) (h : ts ≠ []) :
    genGo embed i ts = (match embed i (ts.take 20) with
      | some embs => embs
      | none => (ts.take 20).map fun _ => []) ++ genGo embed (i + 20) (ts.drop 20) := by
  rw [genGo]
  simp [h]

/-- Under the embedding-service contract (a successful call returns one
vector per requested title), genGo yields one output entry per title. -/
theorem genGo_length {α : Type} (embed : ℕ → List α → Option (List (List ℚ)))
    (hc : ∀ (i : ℕ) (b : List α) (l : List (List ℚ)), embed i b = some l → l.length = b.length)
    (n : ℕ) :
    ∀ (i : ℕ) (ts : List α), ts.length ≤ n → (genGo embed i ts).length = ts.length := by
  induction n with
  | zero =>
    intro i ts hlen
    have : ts = [] := List.eq_nil_of_length_eq_zero (Nat.le_zero.mp hlen)
    subst this
    simp [genGo_nil]
  | succ n ih =>
    intro i ts hlen
    cases hts : ts with
    | nil => simp [genGo_nil]
    | cons a l =>
      subst hts
      rw [genGo_ne _ _ _ (by simp)]
      have hdrop : ((a :: l).drop 20).length ≤ n := by
        simp only [List.length_drop, List.length_cons]
        simp only [List.length_cons] at hlen
        omega
      have hrec := ih (i + 20) ((a :: l).drop 20) hdrop
      have hbatch : (match embed i ((a :: l).take 20) with
          | some embs => embs
          | none => ((a :: l).take 20).map fun _ => []).length
          = ((a :: l).take 20).length := by
        cases hemb : embed i ((a :: l).take 20) with
        | some embs => simpa using hc _ _ _ hemb
        | none => simp
      rw [List.length_append, hbatch, hrec]
      have htd := congrArg List.length (List.take_append_drop 20 (a :: l))
      rw [List.length_append] at htd
      exact htd

/-- Claim C7: EmbeddingGenerator returns exactly one embedding per input
title in input order (given the service contract that a successful call
returns one vector per requested title), and a failed sub-batch of 20 is
filled with empty sentinels while later sub-batches continue: with 21
titles whose first sub-batch call fails and whose second succeeds, the
output is 20 sentinels followed by the embedding of the last title. -/
theorem claim_C7 :
    (∀ (α : Type) (embed : ℕ → List α → Option (List (List ℚ))),
      (∀ (i : ℕ) (b : List α) (l : List (List ℚ)), embed i b = some l → l.length = b.length) →
      ∀ (titles : List α), (generate_title_embeddings embed titles).length = titles.length) ∧
    generate_title_embeddings embW c7titles = List.replicate 20 [] ++ [[20]] := by
  constructor
  · intro α embed hc titles
    exact genGo_length embed hc titles.length 0 titles le_rfl
  · show genGo embW 0 c7titles = _
    rw [genGo_ne _ _ _ (by decide)]
    rw [genGo_ne _ _ _ (by decide)]
    rw [show List.drop 20 (List.drop 20 c7titles) = [] from rfl]
    rw [genGo_nil]
    decide

/-- Witness for claim C7: the contract hypothesis holds for the concrete
oracle embW, so the 21-title run yields exactly 21 output entries. -/
theorem claim_C7_witness :
    (generate_title_embeddings embW c7titles).length = c7titles.length := by
  apply claim_C7.1 ℚ embW
  intro i b l h
  unfold embW at h
  split at h
  · exact Option.noConfusion h
  · injection h with h
    subst h
    simp

/-! ### Helper lemmas: SimilarityGraphBuilder -/

/-- The descending comparison used by sorted_df is transitive. -/
theorem sortLe_trans {α : Type} :
    ∀ (a b c : PairRow α), (decide (b.similarity ≤ a.similarity)) = true →
      (decide (c.similarity ≤ b.similarity)) = true →
      (decide (c.similarity ≤ a.similarity)) = true := by
  intro a b c hab hbc
  simp only [decide_eq_true_eq] at *
  exact le_trans hbc hab

/-- The descending comparison used by sorted_df is total. -/
theorem sortLe_total {α : Type} :
    ∀ (a b : PairRow α), ((decide (b.similarity ≤ a.similarity)) ||
      (decide (a.similarity ≤ b.similarity))) = true := by
  intro a b
  simp only [Bool.or_eq_true, decide_eq_true_eq]
  exact le_total b.similarity a.similarity

/-- Claim C1 as stated is false on the code; this is the amended claim:
the per-source top-10 selection lives only in the neighbors table, whose
per-source link list keeps at most 10 targets, taken from the front of
the similarity-descending sort of that source's retained rows; the
written edge table itself is the positive-similarity row set with one
output row per retained pair and no per-source cap. -/
theorem claim_C1_amended :
    (∀ (α : Type) (_inst : DecidableEq α) (rows : List (PairRow α)) (src : α),
      (top_links rows src).length ≤ 10) ∧
    (∀ (α : Type) (rows : List (PairRow α)), (sorted_df rows).Perm rows) ∧
    (∀ (α : Type) (rows : List (PairRow α)),
      List.Pairwise (fun x y => y.similarity ≤ x.similarity) (sorted_df rows)) ∧
    (∀ (α : Type) (_inst : DecidableEq α) (rows : List (PairRow α)) (src : α),
      ((sorted_df rows).filter fun r => decide (r.title = src)).Perm
        (rows.filter fun r => decide (r.title = src))) ∧
    (∀ (α : Type) (_inst : DecidableEq α) (rows : List (PairRow α)) (src : α),
      List.Pairwise (fun x y => y.similarity ≤ x.similarity)
        ((sorted_df rows).filter fun r => decide (r.title = src))) ∧
    (∀ (α : Type) (rows : List (PairRow α)) (ed : WikiEdge α ℚ),
      ed ∈ edge_df (positive_filter rows) ↔
        ∃ r ∈ rows, 0 < r.similarity ∧ ed = ⟨r.title, r.links, r.similarity⟩) := by
  refine ⟨?_, ?_, ?_, ?_, ?_, ?_⟩
  · intro α _inst rows src
    exact List.length_take_le 10 _
  · intro α rows
    exact List.mergeSort_perm rows _
  · intro α rows
    have hsorted := @List.sorted_mergeSort (PairRow α)
      (fun a b : PairRow α => decide (b.similarity ≤ a.similarity))
      sortLe_trans sortLe_total rows
    exact hsorted.imp fun h => of_decide_eq_true h
  · intro α _inst rows src
    exact (List.mergeSort_perm rows _).filter _
  · intro α _inst rows src
    apply List.Pairwise.sublist (List.filter_sublist _)
    have hsorted := @List.sorted_mergeSort (PairRow α)
      (fun a b : PairRow α => decide (b.similarity ≤ a.similarity))
      sortLe_trans sortLe_total rows
    exact hsorted.imp fun h => of_decide_eq_true h
  · intro α rows ed
    simp only [edge_df, positive_filter, List.mem_map, List.mem_filter, decide_eq_true_eq]
    constructor
    · rintro ⟨r, ⟨hr, hpos⟩, hed⟩
      exact ⟨r, hr, hpos, hed.symm⟩
    · rintro ⟨r, hr, hpos, hed⟩
      exact ⟨r, ⟨hr, hpos⟩, hed.symm⟩

/-- Counterexample for claim C1: a source with 15 positive-similarity
candidate rows of distinct similarities has more than 10 rows in the
written edge table, because edge_df is built from the full filtered
df_exploded and not from the top-10 neighbors table. -/
theorem claim_C1_counterexample :
    10 < ((edge_df (positive_filter c1rows)).filter fun ed => decide (ed.source = 0)).length := by
  decide

/-- Claim C6: a falsy (empty) embedding on either side makes the
computed similarity exactly 0 without any error, and the positive-signal
filter keeps exactly the rows with similarity above 0, so such a row is
removed downstream. -/
theorem claim_C6 :
    (∀ (cos : List ℚ → List ℚ → ℚ) (srcs tgts : List (List ℚ)) (k : ℕ) (s t : List ℚ),
      srcs[k]? = some s → tgts[k]? = some t → s = [] ∨ t = [] →
      (calculate_cosine_similarity cos srcs tgts)[k]? = some 0) ∧
    (∀ (α : Type) (rows : List (PairRow α)) (r : PairRow α),
      r ∈ positive_filter rows ↔ r ∈ rows ∧ 0 < r.similarity) := by
  constructor
  · intro cos srcs tgts k s t hs ht hempty
    unfold calculate_cosine_similarity
    rw [List.getElem?_zipWith]
    rw [hs, ht]
    simp only [if_pos hempty]
  · intro α rows r
    simp [positive_filter, List.mem_filter]

/-- Witness for claim C6: with a source embedding present and the target
embedding empty, the similarity at position 0 is 0 even though the
cosine routine would return 9. -/
theorem claim_C6_witness :
    (calculate_cosine_similarity cos6 srcs6 tgts6)[0]? = some 0 :=
  claim_C6.1 cos6 srcs6 tgts6 0 [1] [] rfl rfl (Or.inr rfl)

/-! ### Helper lemmas: GraphPreprocessor, node dedup pass -/

/-- If the summary and text columns line up with the node rows from
offset i on, the indexed node dedup pass equals the row-level pass and
cannot fail. -/
theorem dedupNodesGo_eq_rows {α σ : Type} [DecidableEq α] :
    ∀ (rows : List (WikiNode α σ)) (ss ts : List σ) (i : ℕ) (acc : List (WikiNode α σ)),
      ss.drop i = rows.map (fun r => r.summary) →
      ts.drop i = rows.map (fun r => r.text) →
      dedupNodesGo ss ts (rows.map fun r => r.id) i acc = .ok (nodeDedupRows acc rows) := by
  intro rows
  induction rows with
  | nil =>
    intro ss ts i acc hs ht
    simp [dedupNodesGo, nodeDedupRows]
  | cons r rest ih =>
    intro ss ts i acc hs ht
    have hsi : ss[i]? = some r.summary := by
      have h0 : (ss.drop i)[0]? = some r.summary := by rw [hs]; simp
      rw [List.getElem?_drop] at h0
      simpa using h0
    have hti : ts[i]? = some r.text := by
      have h0 : (ts.drop i)[0]? = some r.text := by rw [ht]; simp
      rw [List.getElem?_drop] at h0
      simpa using h0
    have hs' : ss.drop (i + 1) = rest.map (fun q => q.summary) := by
      have h1 : (ss.drop i).drop 1 = rest.map (fun q => q.summary) := by rw [hs]; simp
      rw [List.drop_drop] at h1
      simpa [Nat.add_comm] using h1
    have ht' : ts.drop (i + 1) = rest.map (fun q => q.text) := by
      have h1 : (ts.drop i).drop 1 = rest.map (fun q => q.text) := by rw [ht]; simp
      rw [List.drop_drop] at h1
      simpa [Nat.add_comm] using h1
    rw [List.map_cons]
    by_cases hdup : (acc.any fun q => decide (q.id = r.id)) = true
    · simp only [dedupNodesGo, nodeDedupRows, hdup, if_true]
      exact ih ss ts (i + 1) acc hs' ht'
    · simp only [dedupNodesGo, nodeDedupRows, hdup, if_false, Bool.false_eq_true, hsi, hti]
      have : (⟨r.id, r.summary, r.text⟩ : WikiNode α σ) = r := rfl
      rw [this]
      exact ih ss ts (i + 1) (acc ++ [r]) hs' ht'

/-- If the ids of acc and rows are jointly duplicate-free, the row-level
node dedup keeps every row in order. -/
theorem nodeDedupRows_fix {α σ : Type} [DecidableEq α] :
    ∀ (rows acc : List (WikiNode α σ)),
      ((acc ++ rows).map (fun r => r.id)).Nodup →
      nodeDedupRows acc rows = acc ++ rows := by
  intro rows
  induction rows with
  | nil => intro acc _; simp [nodeDedupRows]
  | cons r rest ih =>
    intro acc hnodup
    have hrid : r.id ∉ acc.map (fun q => q.id) := by
      intro hmem
      rw [List.map_append] at hnodup
      rcases (List.nodup_append.mp hnodup) with ⟨_, _, hdisj⟩
      exact hdisj hmem (by simp)
    have hdup : (acc.any fun q => decide (q.id = r.id)) = false := by
      rw [List.any_eq_false]
      intro q hq
      simp only [decide_eq_true_eq]
      intro hqe
      exact hrid (hqe ▸ List.mem_map_of_mem _ hq)
    simp only [nodeDedupRows, hdup, Bool.false_eq_true, if_false]
    have hre : acc ++ r :: rest = (acc ++ [r]) ++ rest := by simp
    rw [hre] at hnodup ⊢
    exact ih (acc ++ [r]) hnodup

/-- The node dedup pass never records the same id twice. -/
theorem dedupNodesGo_nodup {α σ : Type} [DecidableEq α] :
    ∀ (ids : List α) (i : ℕ) (ss ts : List σ) (acc l : List (WikiNode α σ)),
      dedupNodesGo ss ts ids i acc = .ok l →
      (acc.map (fun r => r.id)).Nodup → (l.map fun r => r.id).Nodup := by
  intro ids
  induction ids with
  | nil =>
    intro i ss ts acc l h hacc
    simp only [dedupNodesGo] at h
    injection h with h
    exact h ▸ hacc
  | cons nid rest ih =>
    intro i ss ts acc l h hacc
    by_cases hdup : (acc.any fun q => decide (q.id = nid)) = true
    · simp only [dedupNodesGo, hdup, if_true] at h
      exact ih (i + 1) ss ts acc l h hacc
    · have hdup' : ∀ q ∈ acc, q.id ≠ nid := by
        rw [Bool.not_eq_true, List.any_eq_false] at hdup
        intro q hq
        have := hdup q hq
        simpa using this
      simp only [dedupNodesGo, hdup, Bool.false_eq_true, if_false] at h
      cases hssi : ss[i]? with
      | none => rw [hssi] at h; cases hts : ts[i]? <;> rw [hts] at h <;> simp at h
      | some s =>
        rw [hssi] at h
        cases htsi : ts[i]? with
        | none => rw [htsi] at h; simp at h
        | some t =>
          rw [htsi] at h
          refine ih (i + 1) ss ts (acc ++ [⟨nid, s, t⟩]) l h ?_
          rw [List.map_append, List.nodup_append]
          refine ⟨hacc, by simp, ?_⟩
          intro x hx hy
          simp only [List.map_cons, List.map_nil, List.mem_singleton] at hy
          subst hy
          rcases List.mem_map.mp hx with ⟨q, hq, hqid⟩
          exact hdup' q hq hqid

/-- Every node kept by the dedup pass and not already accumulated is the
first occurrence of its id in the remaining id column, and its summary
and text come from the columns at that same position. -/
theorem dedupNodesGo_first {α σ : Type} [DecidableEq α] :
    ∀ (ids : List α) (i : ℕ) (ss ts : List σ) (acc l : List (WikiNode α σ)),
      dedupNodesGo ss ts ids i acc = .ok l →
      ∀ r ∈ l, r ∈ acc ∨
        ((∃ k, ids[k]? = some r.id ∧ ss[i + k]? = some r.summary ∧ ts[i + k]? = some r.text ∧
          ∀ j < k, ids[j]? ≠ some r.id) ∧ r.id ∉ acc.map fun q => q.id) := by
  intro ids
  induction ids with
  | nil =>
    intro i ss ts acc l h r hr
    simp only [dedupNodesGo] at h
    injection h with h
    exact Or.inl (h ▸ hr)
  | cons nid rest ih =>
    intro i ss ts acc l h r hr
    by_cases hdup : (acc.any fun q => decide (q.id = nid)) = true
    · simp only [dedupNodesGo, hdup, if_true] at h
      rcases ih (i + 1) ss ts acc l h r hr with hacc | ⟨⟨k, hid, hsum, htxt, hfirst⟩, hnotin⟩
      · exact Or.inl hacc
      · refine Or.inr ⟨⟨k + 1, ?_, ?_, ?_, ?_⟩, hnotin⟩
        · simpa using hid
        · have : i + (k + 1) = (i + 1) + k := by omega
          rw [this]; exact hsum
        · have : i + (k + 1) = (i + 1) + k := by omega
          rw [this]; exact htxt
        · intro j hj
          cases j with
          | zero =>
            simp only [List.getElem?_cons_zero]
            intro hc
            injection hc with hc
            rw [List.any_eq_true] at hdup
            rcases hdup with ⟨q, hq, hqd⟩
            rw [decide_eq_true_eq] at hqd
            exact hnotin (hc ▸ hqd ▸ List.mem_map_of_mem _ hq)
          | succ j =>
            simp only [List.getElem?_cons_succ]
            exact hfirst j (by omega)
    · have hdup' : ∀ q ∈ acc, q.id ≠ nid := by
        rw [Bool.not_eq_true, List.any_eq_false] at hdup
        intro q hq
        have := hdup q hq
        simpa using this
      simp only [dedupNodesGo, hdup, Bool.false_eq_true, if_false] at h
      cases hssi : ss[i]? with
      | none => rw [hssi] at h; cases hts : ts[i]? <;> rw [hts] at h <;> simp at h
      | some s =>
        rw [hssi] at h
        cases htsi : ts[i]? with
        | none => rw [htsi] at h; simp at h
        | some t =>
          rw [htsi] at h
          rcases ih (i + 1) ss ts (acc ++ [⟨nid, s, t⟩]) l h r hr
            with hacc | ⟨⟨k, hid, hsum, htxt, hfirst⟩, hnotin⟩
          · rcases List.mem_append.mp hacc with hacc | hnew
            · exact Or.inl hacc
            · rw [List.mem_singleton] at hnew
              subst hnew
              refine Or.inr ⟨⟨0, by simp, by simpa using hssi, by simpa using htsi,
                fun j hj => absurd hj (by omega)⟩, ?_⟩
              intro hmem
              rcases List.mem_map.mp hmem with ⟨q, hq, hqid⟩
              exact hdup' q hq hqid
          · have hnid : r.id ≠ nid := by
              intro hc
              exact hnotin (by simp [hc])
            refine Or.inr ⟨⟨k + 1, by simpa using hid, ?_, ?_, ?_⟩, ?_⟩
            · have harith : i + (k + 1) = (i + 1) + k := by omega
              rw [harith]; exact hsum
            · have harith : i + (k + 1) = (i + 1) + k := by omega
              rw [harith]; exact htxt
            · intro j hj
              cases j with
              | zero =>
                simp only [List.getElem?_cons_zero]
                intro hc
                injection hc with hc
                exact hnid hc.symm
              | succ j =>
                simp only [List.getElem?_cons_succ]
                exact hfirst j (by omega)
            · intro hmem
              exact hnotin (by rw [List.map_append]; exact List.mem_append_left _ hmem)

/-- If every first-occurrence index is within both column bounds, the
node dedup pass succeeds.  The bound is stated for all positions, the
shape every well-formed columnar input provides. -/
theorem dedupNodesGo_isOk {α σ : Type} [DecidableEq α] :
    ∀ (ids : List α) (i : ℕ) (ss ts : List σ) (acc : List (WikiNode α σ)),
      (∀ k, k < ids.length → i + k < ss.length ∧ i + k < ts.length) →
      ∃ l, dedupNodesGo ss ts ids i acc = .ok l := by
  intro ids
  induction ids with
  | nil =>
    intro i ss ts acc _
    exact ⟨acc, by simp [dedupNodesGo]⟩
  | cons nid rest ih =>
    intro i ss ts acc hb
    have hb' : ∀ k, k < rest.length → (i + 1) + k < ss.length ∧ (i + 1) + k < ts.length := by
      intro k hk
      have := hb (k + 1) (by simpa using Nat.succ_lt_succ hk)
      constructor <;> omega
    by_cases hdup : (acc.any fun q => decide (q.id = nid)) = true
    · rcases ih (i + 1) ss ts acc hb' with ⟨l, hl⟩
      exact ⟨l, by simp only [dedupNodesGo, hdup, if_true]; exact hl⟩
    · have hi := hb 0 (by simp)
      have hssi : ss[i]? = some ss[i] := List.getElem?_eq_getElem (by omega)
      have htsi : ts[i]? = some ts[i] := List.getElem?_eq_getElem (by omega)
      rcases ih (i + 1) ss ts (acc ++ [⟨nid, ss[i], ts[i]⟩]) hb' with ⟨l, hl⟩
      refine ⟨l, ?_⟩
      simp only [dedupNodesGo, hdup, Bool.false_eq_true, if_false, hssi, htsi]
      exact hl

/-! ### Helper lemmas: GraphPreprocessor, edge cleaning pass -/

/-- In a linear order, a pair whose minimum equals its maximum is a pair
of equal elements. -/
theorem eq_of_min_eq_max {α : Type} [LinearOrder α] {s t : α} (h : min s t = max s t) :
    s = t := by
  rcases le_total s t with hle | hle
  · rw [min_eq_left hle, max_eq_right hle] at h
    exact h
  · rw [min_eq_right hle, max_eq_left hle] at h
    exact h.symm

/-- The canonical key of a self-loop never equals the canonical key of a
proper edge. -/
theorem edge_key_self_ne {α : Type} [LinearOrder α] (x s t : α) (h : s ≠ t) :
    edge_key x x ≠ edge_key s t := by
  unfold edge_key
  intro heq
  rw [Prod.mk.injEq] at heq
  rcases heq with ⟨h1, h2⟩
  rw [min_self] at h1
  rw [max_self] at h2
  exact h (eq_of_min_eq_max (h1 ▸ h2 ▸ rfl))

/-- If the target and similarity columns line up with the edge rows from
offset i on, the indexed edge cleaning pass equals the row-level pass and
cannot fail. -/
theorem dedupEdgesGo_eq_rows {α β : Type} [LinearOrder α] :
    ∀ (rows : List (WikiEdge α β)) (tg : List α) (sm : List β) (i : ℕ)
      (seen : List (α × α)) (acc : List (WikiEdge α β)),
      tg.drop i = rows.map (fun e => e.target) →
      sm.drop i = rows.map (fun e => e.similarity) →
      dedupEdgesGo tg sm (rows.map fun e => e.source) i seen acc =
        .ok (edgeDedupRows seen acc rows) := by
  intro rows
  induction rows with
  | nil =>
    intro tg sm i seen acc ht hs
    simp [dedupEdgesGo, edgeDedupRows]
  | cons e rest ih =>
    intro tg sm i seen acc ht hs
    have hti : tg[i]? = some e.target := by
      have h0 : (tg.drop i)[0]? = some e.target := by rw [ht]; simp
      rw [List.getElem?_drop] at h0
      simpa using h0
    have hsi : sm[i]? = some e.similarity := by
      have h0 : (sm.drop i)[0]? = some e.similarity := by rw [hs]; simp
      rw [List.getElem?_drop] at h0
      simpa using h0
    have ht' : tg.drop (i + 1) = rest.map (fun q => q.target) := by
      have h1 : (tg.drop i).drop 1 = rest.map (fun q => q.target) := by rw [ht]; simp
      rw [List.drop_drop] at h1
      simpa [Nat.add_comm] using h1
    have hs' : sm.drop (i + 1) = rest.map (fun q => q.similarity) := by
      have h1 : (sm.drop i).drop 1 = rest.map (fun q => q.similarity) := by rw [hs]; simp
      rw [List.drop_drop] at h1
      simpa [Nat.add_comm] using h1
    rw [List.map_cons]
    simp only [dedupEdgesGo, edgeDedupRows, hti, hsi]
    by_cases hloop : e.source = e.target
    · rw [if_pos hloop, if_pos hloop]
      exact ih tg sm (i + 1) seen acc ht' hs'
    · rw [if_neg hloop, if_neg hloop]
      by_cases hseen : edge_key e.source e.target ∈ seen
      · rw [if_pos hseen, if_pos hseen]
        exact ih tg sm (i + 1) seen acc ht' hs'
      · rw [if_neg hseen, if_neg hseen]
        have heta : (⟨e.source, e.target, e.similarity⟩ : WikiEdge α β) = e := rfl
        rw [heta]
        exact ih tg sm (i + 1) (seen ++ [edge_key e.source e.target]) (acc ++ [e]) ht' hs'

/-- If the rows are self-loop-free, have pairwise distinct canonical keys
and none of the keys was seen before, the row-level edge cleaning keeps
every row in order. -/
theorem edgeDedupRows_fix {α β : Type} [LinearOrder α] :
    ∀ (rows : List (WikiEdge α β)) (seen : List (α × α)) (acc : List (WikiEdge α β)),
      (∀ e ∈ rows, e.source ≠ e.target) →
      (rows.map fun e => edge_key e.source e.target).Nodup →
      (∀ e ∈ rows, edge_key e.source e.target ∉ seen) →
      edgeDedupRows seen acc rows = acc ++ rows := by
  intro rows
  induction rows with
  | nil => intro seen acc _ _ _; simp [edgeDedupRows]
  | cons e rest ih =>
    intro seen acc hloop hkeys hseen
    have hle : e.source ≠ e.target := hloop e (by simp)
    have hse : edge_key e.source e.target ∉ seen := hseen e (by simp)
    simp only [edgeDedupRows, if_neg hle, if_neg hse]
    have hkeys' := hkeys
    rw [List.map_cons, List.nodup_cons] at hkeys'
    have hre : acc ++ e :: rest = (acc ++ [e]) ++ rest := by simp
    rw [hre]
    refine ih (seen ++ [edge_key e.source e.target]) (acc ++ [e])
      (fun x hx => hloop x (by simp [hx])) hkeys'.2 ?_
    intro x hx hmem
    rcases List.mem_append.mp hmem with hold | hnew
    · exact hseen x (by simp [hx]) hold
    · rw [List.mem_singleton] at hnew
      exact hkeys'.1 (hnew ▸ List.mem_map_of_mem _ hx)

/-- Every edge kept by the cleaning pass is a proper edge (no
self-loop), provided the accumulated edges are. -/
theorem dedupEdgesGo_noloop {α β : Type} [LinearOrder α] :
    ∀ (srcs : List α) (i : ℕ) (tg : List α) (sm : List β) (seen : List (α × α))
      (acc l : List (WikiEdge α β)),
      dedupEdgesGo tg sm srcs i seen acc = .ok l →
      (∀ e ∈ acc, e.source ≠ e.target) → ∀ e ∈ l, e.source ≠ e.target := by
  intro srcs
  induction srcs with
  | nil =>
    intro i tg sm seen acc l h hacc
    simp only [dedupEdgesGo] at h
    injection h with h
    exact h ▸ hacc
  | cons s rest ih =>
    intro i tg sm seen acc l h hacc
    simp only [dedupEdgesGo] at h
    cases hti : tg[i]? with
    | none => rw [hti] at h; cases hsi : sm[i]? <;> rw [hsi] at h <;> simp at h
    | some t =>
      rw [hti] at h
      cases hsi : sm[i]? with
      | none => rw [hsi] at h; simp at h
      | some sim =>
        simp only [hsi] at h
        by_cases hloop : s = t
        · rw [if_pos hloop] at h
          exact ih (i + 1) tg sm seen acc l h hacc
        · rw [if_neg hloop] at h
          by_cases hseen : edge_key s t ∈ seen
          · rw [if_pos hseen] at h
            exact ih (i + 1) tg sm seen acc l h hacc
          · rw [if_neg hseen] at h
            refine ih (i + 1) tg sm (seen ++ [edge_key s t]) (acc ++ [⟨s, t, sim⟩]) l h ?_
            intro e he
            rcases List.mem_append.mp he with hold | hnew
            · exact hacc e hold
            · rw [List.mem_singleton] at hnew
              subst hnew
              exact hloop

/-- The cleaning pass keeps at most one edge per canonical key, provided
the accumulated keys are pairwise distinct and all recorded in seen. -/
theorem dedupEdgesGo_key_nodup {α β : Type} [LinearOrder α] :
    ∀ (srcs : List α) (i : ℕ) (tg : List α) (sm : List β) (seen : List (α × α))
      (acc l : List (WikiEdge α β)),
      dedupEdgesGo tg sm srcs i seen acc = .ok l →
      (acc.map fun e => edge_key e.source e.target).Nodup →
      (∀ k ∈ acc.map fun e => edge_key e.source e.target, k ∈ seen) →
      (l.map fun e => edge_key e.source e.target).Nodup := by
  intro srcs
  induction srcs with
  | nil =>
    intro i tg sm seen acc l h hacc _
    simp only [dedupEdgesGo] at h
    injection h with h
    exact h ▸ hacc
  | cons s rest ih =>
    intro i tg sm seen acc l h hacc hsub
    simp only [dedupEdgesGo] at h
    cases hti : tg[i]? with
    | none => rw [hti] at h; cases hsi : sm[i]? <;> rw [hsi] at h <;> simp at h
    | some t =>
      rw [hti] at h
      cases hsi : sm[i]? with
      | none => rw [hsi] at h; simp at h
      | some sim =>
        simp only [hsi] at h
        by_cases hloop : s = t
        · rw [if_pos hloop] at h
          exact ih (i + 1) tg sm seen acc l h hacc hsub
        · rw [if_neg hloop] at h
          by_cases hseen : edge_key s t ∈ seen
          · rw [if_pos hseen] at h
            exact ih (i + 1) tg sm seen acc l h hacc hsub
          · rw [if_neg hseen] at h
            refine ih (i + 1) tg sm (seen ++ [edge_key s t]) (acc ++ [⟨s, t, sim⟩]) l h ?_ ?_
            · rw [List.map_append, List.nodup_append]
              refine ⟨hacc, by simp, ?_⟩
              intro x hx hy
              simp only [List.map_cons, List.map_nil, List.mem_singleton] at hy
              subst hy
              exact hseen (hsub _ hx)
            · intro k hk
              rw [List.map_append] at hk
              rcases List.mem_append.mp hk with hold | hnew
              · exact List.mem_append_left _ (hsub k hold)
              · simp only [List.map_cons, List.map_nil, List.mem_singleton] at hnew
                subst hnew
                simp

/-- Accumulated edges survive to the output of the cleaning pass. -/
theorem dedupEdgesGo_mono {α β : Type} [LinearOrder α] :
    ∀ (srcs : List α) (i : ℕ) (tg : List α) (sm : List β) (seen : List (α × α))
      (acc l : List (WikiEdge α β)),
      dedupEdgesGo tg sm srcs i seen acc = .ok l → ∀ e ∈ acc, e ∈ l := by
  intro srcs
  induction srcs with
  | nil =>
    intro i tg sm seen acc l h e he
    simp only [dedupEdgesGo] at h
    injection h with h
    exact h ▸ he
  | cons s rest ih =>
    intro i tg sm seen acc l h e he
    simp only [dedupEdgesGo] at h
    cases hti : tg[i]? with
    | none => rw [hti] at h; cases hsi : sm[i]? <;> rw [hsi] at h <;> simp at h
    | some t =>
      rw [hti] at h
      cases hsi : sm[i]? with
      | none => rw [hsi] at h; simp at h
      | some sim =>
        simp only [hsi] at h
        by_cases hloop : s = t
        · rw [if_pos hloop] at h
          exact ih (i + 1) tg sm seen acc l h e he
        · rw [if_neg hloop] at h
          by_cases hseen : edge_key s t ∈ seen
          · rw [if_pos hseen] at h
            exact ih (i + 1) tg sm seen acc l h e he
          · rw [if_neg hseen] at h
            exact ih (i + 1) tg sm (seen ++ [edge_key s t]) (acc ++ [⟨s, t, sim⟩]) l h e
              (List.mem_append_left _ he)

/-- Every edge kept by the cleaning pass and not already accumulated
comes from a column position holding exactly its fields, is not a
self-loop, its key is not in the initial seen set, and no earlier column
position carries the same canonical key. -/
theorem dedupEdgesGo_mem_char {α β : Type} [LinearOrder α] :
    ∀ (srcs : List α) (i : ℕ) (tg : List α) (sm : List β) (seen : List (α × α))
      (acc l : List (WikiEdge α β)),
      dedupEdgesGo tg sm srcs i seen acc = .ok l →
      ∀ ed ∈ l, ed ∈ acc ∨
        ((∃ k, srcs[k]? = some ed.source ∧ tg[i + k]? = some ed.target ∧
            sm[i + k]? = some ed.similarity ∧
            ∀ j < k, ∀ s' t', srcs[j]? = some s' → tg[i + j]? = some t' →
              edge_key s' t' ≠ edge_key ed.source ed.target) ∧
          ed.source ≠ ed.target ∧ edge_key ed.source ed.target ∉ seen) := by
  intro srcs
  induction srcs with
  | nil =>
    intro i tg sm seen acc l h ed hed
    simp only [dedupEdgesGo] at h
    injection h with h
    exact Or.inl (h ▸ hed)
  | cons s rest ih =>
    intro i tg sm seen acc l h ed hed
    simp only [dedupEdgesGo] at h
    cases hti : tg[i]? with
    | none => rw [hti] at h; cases hsi : sm[i]? <;> rw [hsi] at h <;> simp at h
    | some t =>
      rw [hti] at h
      cases hsi : sm[i]? with
      | none => rw [hsi] at h; simp at h
      | some sim =>
        simp only [hsi] at h
        by_cases hloop : s = t
        · rw [if_pos hloop] at h
          rcases ih (i + 1) tg sm seen acc l h ed hed
            with hacc | ⟨⟨k, hsrc, htg, hsm, hj⟩, hne, hns⟩
          · exact Or.inl hacc
          · refine Or.inr ⟨⟨k + 1, by simpa using hsrc, ?_, ?_, ?_⟩, hne, hns⟩
            · have harith : i + (k + 1) = (i + 1) + k := by omega
              rw [harith]; exact htg
            · have harith : i + (k + 1) = (i + 1) + k := by omega
              rw [harith]; exact hsm
            · intro j hjk s' t' hs' ht'
              cases j with
              | zero =>
                simp only [List.getElem?_cons_zero] at hs'
                injection hs' with hs'
                rw [Nat.add_zero, hti] at ht'
                injection ht' with ht'
                subst hs'
                subst ht'
                rw [hloop]
                exact edge_key_self_ne _ _ _ hne
              | succ j =>
                simp only [List.getElem?_cons_succ] at hs'
                have harith : i + (j + 1) = (i + 1) + j := by omega
                rw [harith] at ht'
                exact hj j (by omega) s' t' hs' ht'
        · rw [if_neg hloop] at h
          by_cases hseen : edge_key s t ∈ seen
          · rw [if_pos hseen] at h
            rcases ih (i + 1) tg sm seen acc l h ed hed
              with hacc | ⟨⟨k, hsrc, htg, hsm, hj⟩, hne, hns⟩
            · exact Or.inl hacc
            · refine Or.inr ⟨⟨k + 1, by simpa using hsrc, ?_, ?_, ?_⟩, hne, hns⟩
              · have harith : i + (k + 1) = (i + 1) + k := by omega
                rw [harith]; exact htg
              · have harith : i + (k + 1) = (i + 1) + k := by omega
                rw [harith]; exact hsm
              · intro j hjk s' t' hs' ht'
                cases j with
                | zero =>
                  simp only [List.getElem?_cons_zero] at hs'
                  injection hs' with hs'
                  rw [Nat.add_zero, hti] at ht'
                  injection ht' with ht'
                  subst hs'
                  subst ht'
                  intro hc
                  exact hns (hc ▸ hseen)
                | succ j =>
                  simp only [List.getElem?_cons_succ] at hs'
                  have harith : i + (j + 1) = (i + 1) + j := by omega
                  rw [harith] at ht'
                  exact hj j (by omega) s' t' hs' ht'
          · rw [if_neg hseen] at h
            rcases ih (i + 1) tg sm (seen ++ [edge_key s t]) (acc ++ [⟨s, t, sim⟩]) l h ed hed
              with hacc | ⟨⟨k, hsrc, htg, hsm, hj⟩, hne, hns⟩
            · rcases List.mem_append.mp hacc with hold | hnew
              · exact Or.inl hold
              · rw [List.mem_singleton] at hnew
                subst hnew
                refine Or.inr ⟨⟨0, by simp, ?_, ?_, fun j hj => absurd hj (by omega)⟩,
                  hloop, hseen⟩
                · rw [Nat.add_zero]; exact hti
                · rw [Nat.add_zero]; exact hsi
            · have hns' : edge_key ed.source ed.target ∉ seen := fun hc =>
                hns (List.mem_append_left _ hc)
              have hnsk : edge_key ed.source ed.target ≠ edge_key s t := fun hc =>
                hns (hc ▸ List.mem_append_right _ (by simp))
              refine Or.inr ⟨⟨k + 1, by simpa using hsrc, ?_, ?_, ?_⟩, hne, hns'⟩
              · have harith : i + (k + 1) = (i + 1) + k := by omega
                rw [harith]; exact htg
              · have harith : i + (k + 1) = (i + 1) + k := by omega
                rw [harith]; exact hsm
              · intro j hjk s' t' hs' ht'
                cases j with
                | zero =>
                  simp only [List.getElem?_cons_zero] at hs'
                  injection hs' with hs'
                  rw [Nat.add_zero, hti] at ht'
                  injection ht' with ht'
                  subst hs'
                  subst ht'
                  exact fun hc => hnsk hc.symm
                | succ j =>
                  simp only [List.getElem?_cons_succ] at hs'
                  have harith : i + (j + 1) = (i + 1) + j := by omega
                  rw [harith] at ht'
                  exact hj j (by omega) s' t' hs' ht'

/-- Conversely: a column position holding a proper edge whose canonical
key is not yet seen and differs from the key at every earlier position is
kept by the cleaning pass. -/
theorem dedupEdgesGo_keep {α β : Type} [LinearOrder α] :
    ∀ (srcs : List α) (i : ℕ) (tg : List α) (sm : List β) (seen : List (α × α))
      (acc l : List (WikiEdge α β)),
      dedupEdgesGo tg sm srcs i seen acc = .ok l →
      ∀ (k : ℕ) (s t : α) (b : β), srcs[k]? = some s → tg[i + k]? = some t →
        sm[i + k]? = some b → s ≠ t → edge_key s t ∉ seen →
        (∀ j < k, ∀ s' t', srcs[j]? = some s' → tg[i + j]? = some t' →
          edge_key s' t' ≠ edge_key s t) →
        (⟨s, t, b⟩ : WikiEdge α β) ∈ l := by
  intro srcs
  induction srcs with
  | nil =>
    intro i tg sm seen acc l h k s t b hsrc _ _ _ _ _
    simp at hsrc
  | cons s0 rest ih =>
    intro i tg sm seen acc l h k s t b hsrc htg hsm hne hnseen hj
    simp only [dedupEdgesGo] at h
    cases hti : tg[i]? with
    | none => rw [hti] at h; cases hsi : sm[i]? <;> rw [hsi] at h <;> simp at h
    | some t0 =>
      rw [hti] at h
      cases hsi : sm[i]? with
      | none => rw [hsi] at h; simp at h
      | some sim0 =>
        simp only [hsi] at h
        cases k with
        | zero =>
          simp only [List.getElem?_cons_zero] at hsrc
          injection hsrc with hsrc
          rw [Nat.add_zero] at htg hsm
          rw [hti] at htg
          injection htg with htg
          rw [hsi] at hsm
          injection hsm with hsm
          subst hsrc
          subst htg
          subst hsm
          rw [if_neg hne, if_neg hnseen] at h
          exact dedupEdgesGo_mono rest (i + 1) tg sm _ _ l h _ (List.mem_append_right _ (by simp))
        | succ k =>
          simp only [List.getElem?_cons_succ] at hsrc
          have harith : i + (k + 1) = (i + 1) + k := by omega
          rw [harith] at htg hsm
          have hj' : ∀ j < k, ∀ s' t', rest[j]? = some s' → tg[(i + 1) + j]? = some t' →
              edge_key s' t' ≠ edge_key s t := by
            intro j hjk s' t' hs' ht'
            have harith2 : (i + 1) + j = i + (j + 1) := by omega
            rw [harith2] at ht'
            exact hj (j + 1) (by omega) s' t' (by simpa using hs') ht'
          by_cases hloop : s0 = t0
          · rw [if_pos hloop] at h
            exact ih (i + 1) tg sm seen acc l h k s t b hsrc htg hsm hne hnseen hj'
          · rw [if_neg hloop] at h
            by_cases hseen0 : edge_key s0 t0 ∈ seen
            · rw [if_pos hseen0] at h
              exact ih (i + 1) tg sm seen acc l h k s t b hsrc htg hsm hne hnseen hj'
            · rw [if_neg hseen0] at h
              have hkne : edge_key s0 t0 ≠ edge_key s t :=
                hj 0 (by omega) s0 t0 (by simp) (by rw [Nat.add_zero]; exact hti)
              refine ih (i + 1) tg sm (seen ++ [edge_key s0 t0]) (acc ++ [⟨s0, t0, sim0⟩])
                l h k s t b hsrc htg hsm hne ?_ hj'
              intro hc
              rcases List.mem_append.mp hc with hold | hnew
              · exact hnseen hold
              · rw [List.mem_singleton] at hnew
                exact hkne hnew.symm

/-! ### The cleanPass layer -/

/-- A successful cleaning pass decomposes into a successful node dedup,
a successful edge cleaning, and the island filter over the resulting
rows. -/
theorem cleanPass_elim {α σ β : Type} [LinearOrder α] (n : NodeCols α σ) (e : EdgeCols α β)
    (out : NodeCols α σ × EdgeCols α β) (h : cleanPass n e = .ok out) :
    ∃ un pe, dedupNodesGo n.summary n.text n.id 0 [] = .ok un ∧
      dedupEdgesGo e.target e.similarity e.source 0 [] [] = .ok pe ∧
      out = (toNodeCols (un.filter fun r => decide (r.id ∈ edgeEndpoints pe)), toEdgeCols pe) := by
  unfold cleanPass at h
  split at h
  · simp at h
  · rename_i un hn
    split at h
    · simp at h
    · rename_i pe he
      injection h with h
      exact ⟨un, pe, hn, he, h.symm⟩

/-- The output of a successful cleaning pass is a fixed point of the
cleaning pass. -/
theorem cleanPass_fix {α σ β : Type} [LinearOrder α] (n : NodeCols α σ) (e : EdgeCols α β)
    (out : NodeCols α σ × EdgeCols α β) (h : cleanPass n e = .ok out) :
    cleanPass out.1 out.2 = .ok out := by
  obtain ⟨un, pe, hn, he, hout⟩ := cleanPass_elim n e out h
  have hnodupUn : (un.map fun r => r.id).Nodup :=
    dedupNodesGo_nodup n.id 0 n.summary n.text [] un hn (by simp)
  have hnodupFn : ((un.filter fun r => decide (r.id ∈ edgeEndpoints pe)).map fun r => r.id).Nodup :=
    List.Nodup.sublist (List.Sublist.map _ (List.filter_sublist _)) hnodupUn
  have hloopPe : ∀ x ∈ pe, x.source ≠ x.target :=
    dedupEdgesGo_noloop e.source 0 e.target e.similarity [] [] pe he (by simp)
  have hkeysPe : (pe.map fun x => edge_key x.source x.target).Nodup :=
    dedupEdgesGo_key_nodup e.source 0 e.target e.similarity [] [] pe he (by simp) (by simp)
  subst hout
  have h1 : dedupNodesGo
      ((un.filter fun r => decide (r.id ∈ edgeEndpoints pe)).map fun r => r.summary)
      ((un.filter fun r => decide (r.id ∈ edgeEndpoints pe)).map fun r => r.text)
      ((un.filter fun r => decide (r.id ∈ edgeEndpoints pe)).map fun r => r.id) 0 [] =
      .ok (un.filter fun r => decide (r.id ∈ edgeEndpoints pe)) := by
    rw [dedupNodesGo_eq_rows _ _ _ 0 [] (by simp) (by simp)]
    rw [nodeDedupRows_fix _ [] (by simpa using hnodupFn)]
    simp
  have h2 : dedupEdgesGo (pe.map fun x => x.target) (pe.map fun x => x.similarity)
      (pe.map fun x => x.source) 0 [] [] = .ok pe := by
    rw [dedupEdgesGo_eq_rows _ _ _ 0 [] [] (by simp) (by simp)]
    rw [edgeDedupRows_fix pe [] [] hloopPe hkeysPe (by simp)]
    simp
  have h3 : ((un.filter fun r => decide (r.id ∈ edgeEndpoints pe)).filter
      fun r => decide (r.id ∈ edgeEndpoints pe)) =
      un.filter fun r => decide (r.id ∈ edgeEndpoints pe) :=
    List.filter_eq_self.mpr fun r hr => (List.mem_filter.mp hr).2
  show cleanPass (toNodeCols (un.filter fun r => decide (r.id ∈ edgeEndpoints pe)))
    (toEdgeCols pe) = _
  unfold cleanPass
  simp only [toNodeCols, toEdgeCols]
  rw [h1, h2]
  simp only [h3]

/-! ### Claim theorems for the GraphPreprocessor -/

/-- Claim C2: GraphPreprocessor is idempotent.  Applying
preprocess_wiki_data to its own output returns that output unchanged:
the same node columns (same ids, summaries and texts in the same order)
and the same edge columns (same orientations and similarities in the
same order).  This holds for every columnar input, including inputs on
which the cleaning pass fails internally, since the fallback then
reproduces the original input both times. -/
theorem claim_C2 {α σ β : Type} [LinearOrder α] (n : NodeCols α σ) (e : EdgeCols α β) :
    preprocess_wiki_data (preprocess_wiki_data n e).1 (preprocess_wiki_data n e).2 =
      preprocess_wiki_data n e := by
  cases hcp : cleanPass n e with
  | error u =>
    have hpe : preprocess_wiki_data n e = (n, e) := by
      unfold preprocess_wiki_data
      rw [hcp]
    rw [hpe]
    show preprocess_wiki_data n e = (n, e)
    exact hpe
  | ok r =>
    have hpe : preprocess_wiki_data n e = r := by
      unfold preprocess_wiki_data
      rw [hcp]
    rw [hpe]
    have hfix := cleanPass_fix n e r hcp
    unfold preprocess_wiki_data
    rw [hfix]

/-- Claim C3: on every input whose cleaning pass completes without
internal failure, the output satisfies all four structural invariants:
pairwise distinct node ids, no self-loop edges, at most one edge per
unordered endpoint pair (pairwise distinct canonical keys), and every
node id an endpoint of at least one output edge. -/
theorem claim_C3 {α σ β : Type} [LinearOrder α] (n : NodeCols α σ) (e : EdgeCols α β)
    (out : NodeCols α σ × EdgeCols α β) (h : cleanPass n e = .ok out) :
    out.1.id.Nodup ∧
    (∀ p ∈ out.2.source.zip out.2.target, p.1 ≠ p.2) ∧
    ((out.2.source.zip out.2.target).map fun p => edge_key p.1 p.2).Nodup ∧
    (∀ a ∈ out.1.id, a ∈ out.2.source ∨ a ∈ out.2.target) := by
  obtain ⟨un, pe, hn, he, hout⟩ := cleanPass_elim n e out h
  have hnodupUn : (un.map fun r => r.id).Nodup :=
    dedupNodesGo_nodup n.id 0 n.summary n.text [] un hn (by simp)
  have hloopPe : ∀ x ∈ pe, x.source ≠ x.target :=
    dedupEdgesGo_noloop e.source 0 e.target e.similarity [] [] pe he (by simp)
  have hkeysPe : (pe.map fun x => edge_key x.source x.target).Nodup :=
    dedupEdgesGo_key_nodup e.source 0 e.target e.similarity [] [] pe he (by simp) (by simp)
  subst hout
  simp only [toNodeCols, toEdgeCols]
  have hzip : ((pe.map fun x => x.source).zip (pe.map fun x => x.target)) =
      pe.map fun x => (x.source, x.target) := List.zip_map' _ _ _
  refine ⟨?_, ?_, ?_, ?_⟩
  · exact List.Nodup.sublist (List.Sublist.map _ (List.filter_sublist _)) hnodupUn
  · intro p hp
    rw [hzip] at hp
    rcases List.mem_map.mp hp with ⟨x, hx, hpx⟩
    subst hpx
    exact hloopPe x hx
  · rw [hzip, List.map_map]
    exact hkeysPe
  · intro a ha
    rcases List.mem_map.mp ha with ⟨r, hr, hid⟩
    have hdec := (List.mem_filter.mp hr).2
    rw [decide_eq_true_eq] at hdec
    subst hid
    unfold edgeEndpoints at hdec
    exact List.mem_append.mp hdec

/-- Claim C5: an edge row survives the preprocessing edge pass exactly
when it is not a self-loop and no earlier row carries the same canonical
unordered key; the kept row retains its original orientation and
similarity, and later rows with the same key are discarded regardless of
similarity.  Concrete scenario: edges over the pair 0,1 in both
orientations with similarities 0.5 then 0.7 yield exactly the first
edge, oriented 0 to 1 with similarity 0.5. -/
theorem claim_C5 {α β : Type} [LinearOrder α] (e : EdgeCols α β) (l : List (WikiEdge α β))
    (h : dedupEdgesGo e.target e.similarity e.source 0 [] [] = .ok l) :
    (∀ ed : WikiEdge α β, ed ∈ l ↔
      ∃ k : ℕ, e.source[k]? = some ed.source ∧ e.target[k]? = some ed.target ∧
        e.similarity[k]? = some ed.similarity ∧ ed.source ≠ ed.target ∧
        ∀ j < k, ∀ s' t' : α, e.source[j]? = some s' → e.target[j]? = some t' →
          edge_key s' t' ≠ edge_key ed.source ed.target) ∧
    preprocess_wiki_data c5nodes c5edges =
      (⟨[0, 1], ["a", "b"], ["p", "q"]⟩, ⟨[0], [1], [1 / 2]⟩) := by
  constructor
  · intro ed
    constructor
    · intro hed
      rcases dedupEdgesGo_mem_char e.source 0 e.target e.similarity [] [] l h ed hed
        with hacc | ⟨⟨k, h1, h2, h3, hj⟩, hne, _⟩
      · simp at hacc
      · refine ⟨k, h1, by simpa using h2, by simpa using h3, hne, ?_⟩
        intro j hjk s' t' hs' ht'
        exact hj j hjk s' t' hs' (by simpa using ht')
    · rintro ⟨k, h1, h2, h3, hne, hj⟩
      have hkeep := dedupEdgesGo_keep e.source 0 e.target e.similarity [] [] l h k
        ed.source ed.target ed.similarity h1 (by simpa using h2) (by simpa using h3) hne
        (by simp) ?_
      · exact hkeep
      · intro j hjk s' t' hs' ht'
        exact hj j hjk s' t' hs' (by simpa using ht')
  · rfl

/-- Claim C8: the preprocessor is atomic on failure.  If the cleaning
pass fails internally, the original (nodes, edges) input pair is
returned completely unmodified; in particular even when the node phase
succeeded and only the edge phase fails, no partially cleaned result
leaks out.  Purity with respect to the inputs is intrinsic to the
functional embedding. -/
theorem claim_C8 {α σ β : Type} [LinearOrder α] :
    (∀ (n : NodeCols α σ) (e : EdgeCols α β), cleanPass n e = .error () →
      preprocess_wiki_data n e = (n, e)) ∧
    (∀ (n : NodeCols α σ) (e : EdgeCols α β) (un : List (WikiNode α σ)),
      dedupNodesGo n.summary n.text n.id 0 [] = .ok un →
      dedupEdgesGo e.target e.similarity e.source 0 [] [] = .error () →
      preprocess_wiki_data n e = (n, e)) := by
  constructor
  · intro n e h
    unfold preprocess_wiki_data
    rw [h]
  · intro n e un hn he
    unfold preprocess_wiki_data cleanPass
    rw [hn, he]

/-- Claim C9: the node dedup keeps, for each output node, the fields of
the first input occurrence of its id: whenever the output node columns
hold (a, s, t) at some position, the input columns hold exactly (a, s,
t) at the first position whose id is a.  Concrete scenario: two input
nodes with id 0 and summaries A then B yield the output node 0 with
summary A. -/
theorem claim_C9 {α σ β : Type} [LinearOrder α] (n : NodeCols α σ) (e : EdgeCols α β)
    (out : NodeCols α σ × EdgeCols α β) (h : cleanPass n e = .ok out) :
    (∀ (k : ℕ) (a : α) (s t : σ), out.1.id[k]? = some a → out.1.summary[k]? = some s →
      out.1.text[k]? = some t →
      ∃ idx : ℕ, n.id[idx]? = some a ∧ n.summary[idx]? = some s ∧ n.text[idx]? = some t ∧
        ∀ j < idx, n.id[j]? ≠ some a) ∧
    preprocess_wiki_data c9nodes c9edges = c9out := by
  constructor
  · obtain ⟨un, pe, hn, he, hout⟩ := cleanPass_elim n e out h
    subst hout
    intro k a s t hka hks hkt
    simp only [toNodeCols] at hka hks hkt
    rw [List.getElem?_map] at hka hks hkt
    rcases Option.map_eq_some'.mp hka with ⟨r, hr, hrid⟩
    rcases Option.map_eq_some'.mp hks with ⟨r2, hr2, hrs⟩
    rcases Option.map_eq_some'.mp hkt with ⟨r3, hr3, hrt⟩
    rw [hr] at hr2 hr3
    injection hr2 with hr2
    injection hr3 with hr3
    subst hr2
    subst hr3
    have hrm : r ∈ un.filter fun q => decide (q.id ∈ edgeEndpoints pe) := List.getElem?_mem hr
    have hru : r ∈ un := List.mem_of_mem_filter hrm
    rcases dedupNodesGo_first n.id 0 n.summary n.text [] un hn r hru
      with habs | ⟨⟨idx, h1, h2, h3, hj⟩, _⟩
    · simp at habs
    · subst hrid
      subst hrs
      subst hrt
      exact ⟨idx, h1, by simpa using h2, by simpa using h3, hj⟩
  · rfl

/-- Claim C10: the output edge columns depend only on the input edge
columns.  For any two well-formed node-column inputs and the same edge
columns, the two runs produce identical output edges (same order,
orientation and similarity); and an edge whose endpoints appear in no
input node survives, so output-edge endpoints need not appear among the
output nodes: with an empty node table and one edge, the output keeps
the edge and no node. -/
theorem claim_C10 {α σ β : Type} [LinearOrder α] :
    (∀ (n1 n2 : NodeCols α σ) (e : EdgeCols α β), wfNodeCols n1 → wfNodeCols n2 →
      (preprocess_wiki_data n1 e).2 = (preprocess_wiki_data n2 e).2) ∧
    preprocess_wiki_data (⟨[], [], []⟩ : NodeCols ℕ String) c10e =
      (⟨[], [], []⟩, ⟨[0], [1], [1]⟩) := by
  constructor
  · intro n1 n2 e hwf1 hwf2
    obtain ⟨un1, h1⟩ := dedupNodesGo_isOk n1.id 0 n1.summary n1.text []
      (fun k hk => ⟨by rw [hwf1.1]; omega, by rw [hwf1.2]; omega⟩)
    obtain ⟨un2, h2⟩ := dedupNodesGo_isOk n2.id 0 n2.summary n2.text []
      (fun k hk => ⟨by rw [hwf2.1]; omega, by rw [hwf2.2]; omega⟩)
    cases he : dedupEdgesGo e.target e.similarity e.source 0 [] [] with
    | error u => simp [preprocess_wiki_data, cleanPass, h1, h2, he]
    | ok pe => simp [preprocess_wiki_data, cleanPass, h1, h2, he]
  · rfl

/-! ### Witnesses for the GraphPreprocessor claims -/

/-- Witness for claim C3: the four invariants hold on the concrete
cleaned output of a graph with duplicate nodes, a reversed duplicate
edge, self-loops and an island node. -/
theorem claim_C3_witness :
    c3out.1.id.Nodup ∧
    (∀ p ∈ c3out.2.source.zip c3out.2.target, p.1 ≠ p.2) ∧
    ((c3out.2.source.zip c3out.2.target).map fun p => edge_key p.1 p.2).Nodup ∧
    (∀ a ∈ c3out.1.id, a ∈ c3out.2.source ∨ a ∈ c3out.2.target) :=
  claim_C3 c3nodes c3edges c3out rfl

/-- Witness for claim C5: the kept edge of the whole-number variant of
the symmetric-dedup scenario comes from position 0, which satisfies the
first-occurrence characterization. -/
theorem claim_C5_witness :
    ∃ k : ℕ, c5wedges.source[k]? = some 0 ∧ c5wedges.target[k]? = some 1 ∧
      c5wedges.similarity[k]? = some 5 ∧ (0 : ℕ) ≠ 1 ∧
      ∀ j < k, ∀ s' t' : ℕ, c5wedges.source[j]? = some s' → c5wedges.target[j]? = some t' →
        edge_key s' t' ≠ edge_key 0 1 :=
  ((claim_C5 c5wedges [⟨0, 1, 5⟩] rfl).1 ⟨0, 1, 5⟩).mp (by decide)

/-- Witness for claim C8: a malformed node column triggers the fallback,
and a malformed edge column triggers it even after a successful node
phase. -/
theorem claim_C8_witness :
    preprocess_wiki_data c8nodes c8edges = (c8nodes, c8edges) ∧
    preprocess_wiki_data c8nodesOk c8edgesBad = (c8nodesOk, c8edgesBad) :=
  ⟨claim_C8.1 c8nodes c8edges rfl,
   claim_C8.2 c8nodesOk c8edgesBad [⟨7, "s", "t"⟩] rfl rfl⟩

/-- Witness for claim C9: in the concrete dedup scenario, the output
node 0 with summary A and text ta traces back to input position 0, the
first occurrence of id 0. -/
theorem claim_C9_witness :
    ∃ idx : ℕ, c9nodes.id[idx]? = some 0 ∧ c9nodes.summary[idx]? = some "A" ∧
      c9nodes.text[idx]? = some "ta" ∧ ∀ j < idx, c9nodes.id[j]? ≠ some 0 :=
  (claim_C9 c9nodes c9edges c9out (by rfl)).1 0 0 "A" "ta" rfl rfl rfl

/-- Witness for claim C10: two different well-formed node tables with
the same single edge produce identical output edge columns. -/
theorem claim_C10_witness :
    (preprocess_wiki_data c10n1 c10e).2 = (preprocess_wiki_data c10n2 c10e).2 :=
  claim_C10.1 c10n1 c10n2 c10e ⟨rfl, rfl⟩ ⟨rfl, rfl⟩

end ConstellAI
